import Mathlib

/-!
Verification of the SmolVLM video preprocessing pipeline
(`src/transformers/models/smolvlm/video_processing_smolvlm.py`).

Conventions of the embedding:
* Python floats are modelled exactly over `ℚ`; Python `int(x)` (truncation
  toward zero) is `pyInt`, Python `round` (banker's rounding, half to even)
  is `pyRound`.
* Tensors are modelled by their shape together with a total value function;
  the trailing two dimensions are the spatial (height, width) ones.
* Fallible Python functions (those that `raise ValueError`) return
  `Except String _`.
-/

namespace SmolVLMProof

/-- `MAX_IMAGE_SIZE = 4096`, the absolute maximum for either resized edge. -/
def MAX_IMAGE_SIZE : ℕ := 4096

/-- The parity correction of `get_resize_output_image_size`: the two source
lines `if x % 2 != 0: x += 1`. -/
def parityUp (n : ℕ) : ℕ := if n % 2 ≠ 0 then n + 1 else n

/-- Embedding of `get_resize_output_image_size` (lines 143-180): the target
`(height, width)` when rescaling the longest edge to `resolution_max_side`
while preserving the aspect ratio.  The Python float computation
`int(width / aspect_ratio)` with `aspect_ratio = width / height` is modelled
exactly: for nonnegative values it is the rational floor
`⌊resolution_max_side * height / width⌋`, i.e. natural division. -/
def get_resize_output_image_size (height width : ℕ) (resolution_max_side : ℕ) : ℕ × ℕ :=
  let r := min MAX_IMAGE_SIZE resolution_max_side
  if width ≥ height then
    (max (parityUp (r * height / width)) 1, max r 1)
  else
    (max r 1, max (parityUp (r * width / height)) 1)

theorem parityUp_even (n : ℕ) : parityUp n % 2 = 0 := by
  unfold parityUp
  split <;> omega

theorem le_parityUp (n : ℕ) : n ≤ parityUp n := by
  unfold parityUp
  split <;> omega

theorem parityUp_le {n r : ℕ} (hle : n ≤ r) (hr : r % 2 = 0) : parityUp n ≤ r := by
  unfold parityUp
  split <;> omega

/-- The property asserted by the spec's resize parity invariant, at one input:
both output dimensions are even, and the larger output dimension equals
`longest_edge` clamped to `[1, 4096]`. -/
def resizeParityClaim (height width longest_edge : ℕ) : Prop :=
  let out := get_resize_output_image_size height width longest_edge
  out.1 % 2 = 0 ∧ out.2 % 2 = 0 ∧ max out.1 out.2 = min (max longest_edge 1) 4096

/-- The in-branch aspect-ratio floor: the raw rounded-down short side before
parity correction.  The spec's caveat "whenever the clamped value doesn't
force rounding below 1" is the statement `1 ≤ resizeRawShortSide`. -/
def resizeRawShortSide (height width longest_edge : ℕ) : ℕ :=
  min MAX_IMAGE_SIZE longest_edge * min height width / max height width

/-- C1 (counterexample): the resize parity invariant as claimed is false.
At `height = width = 10`, `longest_edge = 3` the clamped value is `3` and no
rounding below 1 occurs (`⌊3·10/10⌋ = 3 ≥ 1`), yet the output is `(4, 3)`:
the width `3` is odd and `max 4 3 = 4 ≠ 3`. -/
theorem resize_parity_counterexample :
    get_resize_output_image_size 10 10 3 = (4, 3) ∧
    1 ≤ resizeRawShortSide 10 10 3 ∧
    ¬ resizeParityClaim 10 10 3 := by
  refine ⟨by decide, by decide, ?_⟩
  simp only [resizeParityClaim]
  decide

/-- C1 (amended): whenever the clamped target `min 4096 longest_edge` is
*even* and does not force rounding below 1, both output dimensions are even
and `max(height, width)` of the output equals the clamped target (which, being
at least 1 by the no-rounding-below-1 hypothesis, coincides with
`longest_edge` clamped to `[1, 4096]`). -/
theorem resize_parity_even_target (height width longest_edge : ℕ)
    (hh : 0 < height) (hw : 0 < width)
    (heven : min MAX_IMAGE_SIZE longest_edge % 2 = 0)
    (hraw : 1 ≤ resizeRawShortSide height width longest_edge) :
    (get_resize_output_image_size height width longest_edge).1 % 2 = 0 ∧
    (get_resize_output_image_size height width longest_edge).2 % 2 = 0 ∧
    max (get_resize_output_image_size height width longest_edge).1
        (get_resize_output_image_size height width longest_edge).2 =
      min MAX_IMAGE_SIZE longest_edge := by
  unfold get_resize_output_image_size
  unfold resizeRawShortSide at hraw
  by_cases hcmp : width ≥ height
  · have hmin : min height width = height := min_eq_left hcmp
    have hmax : max height width = width := max_eq_right hcmp
    rw [hmin, hmax] at hraw
    simp only [hcmp, if_true]
    have hr1 : 1 ≤ min MAX_IMAGE_SIZE longest_edge := by
      rcases Nat.eq_zero_or_pos (min MAX_IMAGE_SIZE longest_edge) with h0 | h0
      · rw [h0] at hraw
        simp at hraw
      · exact h0
    have hle : min MAX_IMAGE_SIZE longest_edge * height / width ≤
        min MAX_IMAGE_SIZE longest_edge := by
      have h1 : min MAX_IMAGE_SIZE longest_edge * height ≤
          min MAX_IMAGE_SIZE longest_edge * width :=
        Nat.mul_le_mul_left _ hcmp
      have h2 := Nat.div_le_div_right (c := width) h1
      have h3 : min MAX_IMAGE_SIZE longest_edge * width / width =
          min MAX_IMAGE_SIZE longest_edge := Nat.mul_div_cancel _ hw
      omega
    have hp1 : 1 ≤ parityUp (min MAX_IMAGE_SIZE longest_edge * height / width) :=
      le_trans hraw (le_parityUp _)
    have hple : parityUp (min MAX_IMAGE_SIZE longest_edge * height / width) ≤
        min MAX_IMAGE_SIZE longest_edge := parityUp_le hle heven
    refine ⟨?_, ?_, ?_⟩
    · simpa [max_eq_left hp1] using parityUp_even _
    · simpa [max_eq_left hr1] using heven
    · rw [max_eq_left hp1, max_eq_left hr1]
      exact max_eq_right hple
  · push_neg at hcmp
    have hmin : min height width = width := min_eq_right (le_of_lt hcmp)
    have hmax : max height width = height := max_eq_left (le_of_lt hcmp)
    rw [hmin, hmax] at hraw
    have hcmp' : ¬ width ≥ height := by omega
    simp only [hcmp', if_false]
    have hr1 : 1 ≤ min MAX_IMAGE_SIZE longest_edge := by
      rcases Nat.eq_zero_or_pos (min MAX_IMAGE_SIZE longest_edge) with h0 | h0
      · rw [h0] at hraw
        simp at hraw
      · exact h0
    have hle : min MAX_IMAGE_SIZE longest_edge * width / height ≤
        min MAX_IMAGE_SIZE longest_edge := by
      have h1 : min MAX_IMAGE_SIZE longest_edge * width ≤
          min MAX_IMAGE_SIZE longest_edge * height :=
        Nat.mul_le_mul_left _ (le_of_lt hcmp)
      have h2 := Nat.div_le_div_right (c := height) h1
      have h3 : min MAX_IMAGE_SIZE longest_edge * height / height =
          min MAX_IMAGE_SIZE longest_edge := Nat.mul_div_cancel _ hh
      omega
    have hp1 : 1 ≤ parityUp (min MAX_IMAGE_SIZE longest_edge * width / height) :=
      le_trans hraw (le_parityUp _)
    have hple : parityUp (min MAX_IMAGE_SIZE longest_edge * width / height) ≤
        min MAX_IMAGE_SIZE longest_edge := parityUp_le hle heven
    refine ⟨?_, ?_, ?_⟩
    · simpa [max_eq_left hr1] using heven
    · simpa [max_eq_left hp1] using parityUp_even _
    · rw [max_eq_left hp1, max_eq_left hr1]
      exact max_eq_left hple

/-- C1 amended witness at `height = width = 10`, `longest_edge = 4`. -/
theorem resize_parity_even_target_witness :
    (0 < 10 ∧ 0 < 10 ∧ min MAX_IMAGE_SIZE 4 % 2 = 0 ∧ 1 ≤ resizeRawShortSide 10 10 4) ∧
    ((get_resize_output_image_size 10 10 4).1 % 2 = 0 ∧
     (get_resize_output_image_size 10 10 4).2 % 2 = 0 ∧
     max (get_resize_output_image_size 10 10 4).1
         (get_resize_output_image_size 10 10 4).2 = min MAX_IMAGE_SIZE 4) :=
  ⟨⟨by decide, by decide, by decide, by decide⟩,
   resize_parity_even_target 10 10 4 (by decide) (by decide) (by decide) (by decide)⟩

theorem parityUp_eq (n : ℕ) : parityUp n = if n % 2 = 1 then n + 1 else n := by
  unfold parityUp
  rcases Nat.mod_two_eq_zero_or_one n with h | h <;> simp [h]

/-- The target-size computation exactly as the spec words it (C2): clamp the
target to at most 4096, form the rational aspect ratio `width / height`,
round the dependent side down (`⌊·⌋₊` of the rational quotient/product),
increment it by 1 if odd, and finally floor both dimensions at a minimum
of 1. -/
def resize_size_from_spec (height width longest_edge : ℕ) : ℕ × ℕ :=
  let target := min longest_edge 4096
  let aspect : ℚ := (width : ℚ) / (height : ℚ)
  if width ≥ height then
    let nw := target
    let nh := ⌊(nw : ℚ) / aspect⌋₊
    let nh' := if nh % 2 = 1 then nh + 1 else nh
    (max nh' 1, max nw 1)
  else
    let nh := target
    let nw := ⌊(nh : ℚ) * aspect⌋₊
    let nw' := if nw % 2 = 1 then nw + 1 else nw
    (max nh 1, max nw' 1)

/-- C2: for every positive input size and every `longest_edge` target, the
source computation agrees step by step with the spec's description of it
(clamp to at most 4096; divide/multiply by the aspect ratio `width/height`
rounding down; parity-increment the dependent side; floor both at 1). -/
theorem resize_size_follows_spec (height width longest_edge : ℕ)
    (hh : 0 < height) (hw : 0 < width) :
    get_resize_output_image_size height width longest_edge =
      resize_size_from_spec height width longest_edge := by
  have hq1 : ∀ t : ℕ, ⌊(t : ℚ) / ((width : ℚ) / (height : ℚ))⌋₊ = t * height / width := by
    intro t
    rw [div_div_eq_mul_div]
    rw [show ((t : ℚ) * (height : ℚ)) = ((t * height : ℕ) : ℚ) by push_cast; ring]
    exact Nat.floor_div_eq_div _ _
  have hq2 : ∀ t : ℕ, ⌊(t : ℚ) * ((width : ℚ) / (height : ℚ))⌋₊ = t * width / height := by
    intro t
    rw [← mul_div_assoc]
    rw [show ((t : ℚ) * (width : ℚ)) = ((t * width : ℕ) : ℚ) by push_cast; ring]
    exact Nat.floor_div_eq_div _ _
  have hm : min MAX_IMAGE_SIZE longest_edge = min longest_edge 4096 := by
    rw [min_comm]
    rfl
  unfold get_resize_output_image_size resize_size_from_spec
  by_cases hcmp : width ≥ height <;>
    simp only [hcmp, if_true, if_false, hq1, hq2, hm, parityUp_eq]

/-- C2 witness at `height = 2`, `width = 3`, `longest_edge = 10`. -/
theorem resize_size_follows_spec_witness :
    (0 < 2 ∧ 0 < 3) ∧
    get_resize_output_image_size 2 3 10 = resize_size_from_spec 2 3 10 :=
  ⟨⟨by decide, by decide⟩, resize_size_follows_spec 2 3 10 (by decide) (by decide)⟩

/-- Python `int(x)` on a float: truncation toward zero. -/
def pyInt (q : ℚ) : ℤ := if 0 ≤ q then ⌊q⌋ else -⌊-q⌋

/-- Python `round(x)`: round half to even (banker's rounding). -/
def pyRound (q : ℚ) : ℤ :=
  let f := ⌊q⌋
  let r := q - (f : ℚ)
  if r < 1 / 2 then f
  else if 1 / 2 < r then f + 1
  else if f % 2 = 0 then f else f + 1

/-- `np.linspace(start, stop, num)` over exact rationals: `num` evenly spaced
values from `start` to `stop`, both endpoints included (for `num = 1`, numpy
returns just `[start]`; for `num = 0`, the empty array). -/
def np_linspace (start stop : ℤ) (num : ℕ) : List ℚ :=
  if num = 1 then [(start : ℚ)]
  else (List.range num).map
    (fun (i : ℕ) => (start : ℚ) + (i : ℚ) * ((stop : ℚ) - (start : ℚ)) / ((num - 1 : ℕ) : ℚ))

/-- Adjacent deduplication of a sorted list (the uniqueness pass of
`np.unique`). -/
def dedupSorted : List ℤ → List ℤ
  | [] => []
  | [a] => [a]
  | a :: b :: rest => if a = b then dedupSorted (b :: rest) else a :: dedupSorted (b :: rest)

/-- `np.unique`: sort, then drop duplicates. -/
def np_unique (l : List ℤ) : List ℤ := dedupSorted (List.insertionSort (· ≤ ·) l)

theorem mem_dedupSorted {x : ℤ} : ∀ {l : List ℤ}, x ∈ dedupSorted l ↔ x ∈ l := by
  intro l
  induction l using dedupSorted.induct with
  | case1 => simp [dedupSorted]
  | case2 a => simp [dedupSorted]
  | case3 b rest ih =>
    simpa [dedupSorted] using ih
  | case4 a b rest hab ih =>
    simp only [dedupSorted, if_neg hab, List.mem_cons]
    rw [ih]
    simp [List.mem_cons]

theorem length_dedupSorted : ∀ {l : List ℤ}, (dedupSorted l).length ≤ l.length := by
  intro l
  induction l using dedupSorted.induct with
  | case1 => simp [dedupSorted]
  | case2 a => simp [dedupSorted]
  | case3 b rest ih =>
    simp only [dedupSorted, if_pos rfl]
    calc (dedupSorted (b :: rest)).length ≤ (b :: rest).length := ih
      _ ≤ (b :: b :: rest).length := by simp
  | case4 a b rest hab ih =>
    simp only [dedupSorted, if_neg hab, List.length_cons]
    exact Nat.succ_le_succ ih

theorem dedupSorted_sorted :
    ∀ {l : List ℤ}, l.Sorted (· ≤ ·) → (dedupSorted l).Sorted (· < ·) := by
  intro l
  induction l using dedupSorted.induct with
  | case1 => simp [dedupSorted]
  | case2 a => simp [dedupSorted]
  | case3 b rest ih =>
    intro hs
    simp only [dedupSorted, if_pos rfl]
    exact ih (List.Sorted.of_cons hs)
  | case4 a b rest hab ih =>
    intro hs
    simp only [dedupSorted, if_neg hab]
    have htail : (b :: rest).Sorted (· ≤ ·) := List.Sorted.of_cons hs
    refine List.sorted_cons.mpr ⟨?_, ih htail⟩
    intro x hx
    have hxmem : x ∈ b :: rest := mem_dedupSorted.mp hx
    have hbx : b ≤ x := by
      rcases List.mem_cons.mp hxmem with h | h
      · omega
      · exact (List.sorted_cons.mp htail).1 x h
    have hablt : a < b := by
      have hle : a ≤ b := (List.sorted_cons.mp hs).1 b (List.mem_cons_self b rest)
      omega
    omega

theorem mem_np_unique {x : ℤ} {l : List ℤ} : x ∈ np_unique l ↔ x ∈ l := by
  unfold np_unique
  rw [mem_dedupSorted]
  exact (List.perm_insertionSort (· ≤ ·) l).mem_iff

theorem length_np_unique (l : List ℤ) : (np_unique l).length ≤ l.length := by
  unfold np_unique
  calc (dedupSorted (List.insertionSort (· ≤ ·) l)).length
      ≤ (List.insertionSort (· ≤ ·) l).length := length_dedupSorted
    _ = l.length := (List.perm_insertionSort (· ≤ ·) l).length_eq

theorem np_unique_sorted (l : List ℤ) : (np_unique l).Sorted (· < ·) :=
  dedupSorted_sorted (List.sorted_insertionSort (· ≤ ·) l)

/-- Metadata consumed by the sampler: frame count, native fps, duration. -/
structure VideoMetadata where
  total_num_frames : ℤ
  fps : ℚ
  duration : ℚ

/-- Steps 1-2 of `smolvlm_sample_indices_fn` (lines 104-110): the number of
frames to sample, `max(1, min(round(target_fps * duration), max_frames))`. -/
def desiredFrames (max_frames : ℤ) (target_fps duration : ℚ) : ℤ :=
  let estimated_frames := pyRound (target_fps * duration)
  let d := min estimated_frames max_frames
  if d < 1 then 1 else d

/-- Step 3 of `smolvlm_sample_indices_fn` (lines 112-123): the sampling
window `[start_idx, end_idx]`, with the center-skip logic, the clamp to
`[0, total_num_frames - 1]` and the defensive full-window fallback. -/
def sampleWindow (total max_frames : ℤ) (native_fps duration target_fps skip_secs : ℚ) :
    ℤ × ℤ :=
  let se :=
    if skip_secs > 0 ∧ duration - 2 * skip_secs > (max_frames : ℚ) * target_fps then
      (pyInt (skip_secs * native_fps), pyInt ((total : ℚ) - skip_secs * native_fps))
    else ((0 : ℤ), total - 1)
  let s := max 0 se.1
  let e := min se.2 (total - 1)
  if s ≥ e then ((0 : ℤ), total - 1) else (s, e)

/-- Embedding of `smolvlm_sample_indices_fn` (lines 71-128): validate the
metadata, compute the desired frame count and sampling window, then return
`np.unique(np.linspace(start, end, desired, dtype=int))` — the evenly spaced
values truncated to integers, sorted, deduplicated. -/
def smolvlm_sample_indices_fn (metadata : VideoMetadata) (max_frames : ℤ)
    (target_fps : ℚ) (skip_secs : ℚ) : Except String (List ℤ) :=
  if metadata.total_num_frames ≤ 0 then
    .error "Invalid total_num_frames in metadata."
  else if metadata.duration ≤ 0 then
    .error "Invalid duration_seconds in metadata."
  else
    let desired := desiredFrames max_frames target_fps metadata.duration
    let se := sampleWindow metadata.total_num_frames max_frames metadata.fps
      metadata.duration target_fps skip_secs
    .ok (np_unique ((np_linspace se.1 se.2 desired.toNat).map pyInt))

/-- The sampler as C3 words it: identical to `smolvlm_sample_indices_fn`
except that the evenly spaced values are rounded to the *nearest* integer
instead of truncated. -/
def sample_indices_rounded (metadata : VideoMetadata) (max_frames : ℤ)
    (target_fps : ℚ) (skip_secs : ℚ) : Except String (List ℤ) :=
  if metadata.total_num_frames ≤ 0 then
    .error "Invalid total_num_frames in metadata."
  else if metadata.duration ≤ 0 then
    .error "Invalid duration_seconds in metadata."
  else
    let desired := desiredFrames max_frames target_fps metadata.duration
    let se := sampleWindow metadata.total_num_frames max_frames metadata.fps
      metadata.duration target_fps skip_secs
    .ok (np_unique ((np_linspace se.1 se.2 desired.toNat).map pyRound))

theorem pyInt_intCast (z : ℤ) : pyInt (z : ℚ) = z := by
  unfold pyInt
  by_cases h : (0 : ℚ) ≤ (z : ℚ)
  · simp [h, Int.floor_intCast]
  · rw [if_neg h]
    rw [show (-(z : ℚ)) = ((-z : ℤ) : ℚ) by push_cast; ring, Int.floor_intCast]
    ring

theorem pyInt_bounds {s e : ℤ} {q : ℚ} (hs : 0 ≤ s) (h1 : (s : ℚ) ≤ q) (h2 : q ≤ (e : ℚ)) :
    s ≤ pyInt q ∧ pyInt q ≤ e := by
  have hq : (0 : ℚ) ≤ q := le_trans (by exact_mod_cast hs) h1
  unfold pyInt
  rw [if_pos hq]
  refine ⟨Int.le_floor.mpr h1, ?_⟩
  calc ⌊q⌋ ≤ ⌊(e : ℚ)⌋ := Int.floor_le_floor h2
    _ = e := Int.floor_intCast e

theorem np_linspace_length (s e : ℤ) (n : ℕ) : (np_linspace s e n).length = n := by
  unfold np_linspace
  by_cases h : n = 1
  · rw [if_pos h, h]
    rfl
  · rw [if_neg h, List.length_map, List.length_range]

theorem np_linspace_mem_le {s e : ℤ} {n : ℕ} (hse : s ≤ e) :
    ∀ q ∈ np_linspace s e n, (s : ℚ) ≤ q ∧ q ≤ (e : ℚ) := by
  intro q hq
  unfold np_linspace at hq
  by_cases h1 : n = 1
  · rw [if_pos h1] at hq
    simp only [List.mem_singleton] at hq
    subst hq
    exact ⟨le_refl _, by exact_mod_cast hse⟩
  · rw [if_neg h1] at hq
    simp only [List.mem_map, List.mem_range] at hq
    obtain ⟨i, hi, rfl⟩ := hq
    have hn2 : 2 ≤ n := by
      rcases n with _ | n
      · simp at hi
      · omega
    have hd : (0 : ℚ) < ((n - 1 : ℕ) : ℚ) := Nat.cast_pos.mpr (by omega)
    have hes : (0 : ℚ) ≤ (e : ℚ) - (s : ℚ) := by
      have hse' : (s : ℚ) ≤ (e : ℚ) := by exact_mod_cast hse
      linarith
    constructor
    · have hnn : 0 ≤ (i : ℚ) * ((e : ℚ) - (s : ℚ)) / ((n - 1 : ℕ) : ℚ) :=
        div_nonneg (mul_nonneg (Nat.cast_nonneg i) hes) (le_of_lt hd)
      linarith
    · have hile : i ≤ n - 1 := by omega
      have hi' : (i : ℚ) ≤ ((n - 1 : ℕ) : ℚ) := Nat.cast_le.mpr hile
      have hstep : (i : ℚ) * ((e : ℚ) - (s : ℚ)) / ((n - 1 : ℕ) : ℚ) ≤ (e : ℚ) - (s : ℚ) := by
        rw [div_le_iff₀ hd]
        calc (i : ℚ) * ((e : ℚ) - (s : ℚ))
            ≤ ((n - 1 : ℕ) : ℚ) * ((e : ℚ) - (s : ℚ)) := mul_le_mul_of_nonneg_right hi' hes
          _ = ((e : ℚ) - (s : ℚ)) * ((n - 1 : ℕ) : ℚ) := mul_comm _ _
      linarith

theorem np_linspace_start_mem (s e : ℤ) {n : ℕ} (hn : 1 ≤ n) : (s : ℚ) ∈ np_linspace s e n := by
  unfold np_linspace
  by_cases h1 : n = 1
  · simp [h1]
  · rw [if_neg h1]
    simp only [List.mem_map, List.mem_range]
    exact ⟨0, by omega, by simp⟩

theorem np_linspace_stop_mem (s e : ℤ) {n : ℕ} (hn : 2 ≤ n) : (e : ℚ) ∈ np_linspace s e n := by
  unfold np_linspace
  have h1 : n ≠ 1 := by omega
  rw [if_neg h1]
  simp only [List.mem_map, List.mem_range]
  refine ⟨n - 1, by omega, ?_⟩
  have hd : ((n - 1 : ℕ) : ℚ) ≠ 0 := Nat.cast_ne_zero.mpr (by omega)
  rw [mul_div_cancel_left₀ ((e : ℚ) - (s : ℚ)) hd]
  ring

theorem desiredFrames_pos (max_frames : ℤ) (tf dur : ℚ) :
    1 ≤ desiredFrames max_frames tf dur := by
  simp only [desiredFrames]
  split <;> omega

theorem desiredFrames_le {max_frames : ℤ} (tf dur : ℚ) (hmf : 1 ≤ max_frames) :
    desiredFrames max_frames tf dur ≤ max_frames := by
  simp only [desiredFrames]
  split <;> omega

theorem sampleWindow_bounds (total max_frames : ℤ) (nf dur tf ss : ℚ) (htot : 1 ≤ total) :
    0 ≤ (sampleWindow total max_frames nf dur tf ss).1 ∧
    (sampleWindow total max_frames nf dur tf ss).1 ≤
      (sampleWindow total max_frames nf dur tf ss).2 ∧
    (sampleWindow total max_frames nf dur tf ss).2 ≤ total - 1 := by
  simp only [sampleWindow]
  set se := if ss > 0 ∧ dur - 2 * ss > (max_frames : ℚ) * tf then
      (pyInt (ss * nf), pyInt ((total : ℚ) - ss * nf))
    else ((0 : ℤ), total - 1) with hse
  have h1 : (0 : ℤ) ≤ max 0 se.1 := le_max_left _ _
  have h2 : min se.2 (total - 1) ≤ total - 1 := min_le_right _ _
  split
  · exact ⟨le_refl 0, by omega, by omega⟩
  · rename_i hlt
    exact ⟨h1, by omega, h2⟩

/-- C9: the frame sampler fails (raises `ValueError`, i.e. returns an error)
if and only if the metadata has `total_num_frames <= 0` or `duration <= 0`;
for valid metadata it always returns a result. -/
theorem sampler_invalid_metadata_iff (m : VideoMetadata) (max_frames : ℤ) (tf ss : ℚ) :
    (smolvlm_sample_indices_fn m max_frames tf ss).isOk = false ↔
      m.total_num_frames ≤ 0 ∨ m.duration ≤ 0 := by
  unfold smolvlm_sample_indices_fn
  by_cases h1 : m.total_num_frames ≤ 0
  · simp [h1, Except.isOk, Except.toBool]
  · by_cases h2 : m.duration ≤ 0
    · simp [h1, h2, Except.isOk, Except.toBool]
    · simp [h1, h2, Except.isOk, Except.toBool]

/-- C4 (counterexample): with `max_frames = 0` (and valid metadata
`total_num_frames = 10`, `fps = 30`, `duration = 1`, `target_fps = 1`,
`skip_secs = 0`) the sampler returns one index, so its length exceeds
`max_frames`: the bound "length ≤ max_frames for every integer max_frames"
is false. -/
theorem sampler_bounds_counterexample :
    smolvlm_sample_indices_fn ⟨10, 30, 1⟩ 0 1 0 = .ok [0] ∧
      ¬ ((([0] : List ℤ).length : ℤ) ≤ 0) := by
  constructor
  · have hdes : desiredFrames 0 1 1 = 1 := by
      unfold desiredFrames pyRound
      norm_num
    have hwin : sampleWindow 10 0 30 1 1 0 = (0, 9) := by
      unfold sampleWindow pyInt
      norm_num
    have hmap : (([(0 : ℚ)] : List ℚ).map pyInt) = [0] := by
      simp only [List.map]
      norm_num [pyInt]
    unfold smolvlm_sample_indices_fn
    rw [if_neg (by norm_num), if_neg (by norm_num)]
    dsimp only
    rw [hdes, hwin]
    dsimp only
    rw [show ((1 : ℤ)).toNat = 1 from rfl,
      show np_linspace 0 9 1 = [(0 : ℚ)] from rfl, hmap]
    rfl
  · decide

/-- C4 (amended): for valid metadata and `max_frames ≥ 1`, the sampler
returns indices that all lie in `[0, total_num_frames - 1]`, are strictly
ascending, and number at most `max_frames`.  (The code floors the desired
count at 1, so for `max_frames ≤ 0` the returned length can exceed
`max_frames`; the claim holds once `max_frames ≥ 1`.) -/
theorem sampler_bounds (m : VideoMetadata) (max_frames : ℤ) (tf ss : ℚ)
    (htot : 0 < m.total_num_frames) (hdur : 0 < m.duration) (hmf : 1 ≤ max_frames) :
    ∃ l, smolvlm_sample_indices_fn m max_frames tf ss = .ok l ∧
      (∀ x ∈ l, 0 ≤ x ∧ x ≤ m.total_num_frames - 1) ∧
      l.Sorted (· < ·) ∧ (l.length : ℤ) ≤ max_frames := by
  have hne1 : ¬ m.total_num_frames ≤ 0 := by omega
  have hne2 : ¬ m.duration ≤ 0 := not_le.mpr hdur
  set d := desiredFrames max_frames tf m.duration with hd
  set se := sampleWindow m.total_num_frames max_frames m.fps m.duration tf ss with hsedef
  set lst := (np_linspace se.1 se.2 d.toNat).map pyInt with hlst
  have heq : smolvlm_sample_indices_fn m max_frames tf ss = .ok (np_unique lst) := by
    unfold smolvlm_sample_indices_fn
    rw [if_neg hne1, if_neg hne2]
  obtain ⟨hw0, hw1, hw2⟩ :=
    sampleWindow_bounds m.total_num_frames max_frames m.fps m.duration tf ss (by omega)
  refine ⟨np_unique lst, heq, ?_, np_unique_sorted _, ?_⟩
  · intro x hx
    have hx' : x ∈ lst := mem_np_unique.mp hx
    rw [hlst] at hx'
    obtain ⟨q, hq, rfl⟩ := List.mem_map.mp hx'
    have hb := np_linspace_mem_le hw1 q hq
    have hpb := pyInt_bounds hw0 hb.1 hb.2
    exact ⟨by omega, by omega⟩
  · have h1 : (np_unique lst).length ≤ lst.length := length_np_unique _
    have h2 : lst.length = d.toNat := by
      rw [hlst, List.length_map, np_linspace_length]
    have h3 : d ≤ max_frames := desiredFrames_le tf m.duration hmf
    have h4 : 1 ≤ d := desiredFrames_pos max_frames tf m.duration
    omega

/-- C4 amended witness: metadata `(100 frames, 30 fps, 10 s)`,
`max_frames = 5`, `target_fps = 1`, `skip_secs = 0`. -/
theorem sampler_bounds_witness :
    (0 < (⟨100, 30, 10⟩ : VideoMetadata).total_num_frames ∧
     0 < (⟨100, 30, 10⟩ : VideoMetadata).duration ∧ (1 : ℤ) ≤ 5) ∧
    ∃ l, smolvlm_sample_indices_fn ⟨100, 30, 10⟩ 5 1 0 = .ok l ∧
      (∀ x ∈ l, 0 ≤ x ∧ x ≤ (⟨100, 30, 10⟩ : VideoMetadata).total_num_frames - 1) ∧
      l.Sorted (· < ·) ∧ (l.length : ℤ) ≤ 5 :=
  ⟨⟨by decide, by decide, by decide⟩,
   sampler_bounds ⟨100, 30, 10⟩ 5 1 0 (by decide) (by decide) (by decide)⟩

/-- C3 (counterexample): the sampler truncates the evenly spaced values
toward zero; it does not round them to the nearest integer.  At metadata
`(100 frames, 30 fps, 10 s)`, `max_frames = 8`, `target_fps = 2`,
`skip_secs = 0`, the window is `[0, 99]` with 8 points; the point
`4·99/7 = 56.571…` is truncated to 56, while rounding to nearest (as the
claim states) would give 57, so the two results differ. -/
theorem sampler_rounding_counterexample :
    smolvlm_sample_indices_fn ⟨100, 30, 10⟩ 8 2 0 = .ok [0, 14, 28, 42, 56, 70, 84, 99] ∧
    sample_indices_rounded ⟨100, 30, 10⟩ 8 2 0 = .ok [0, 14, 28, 42, 57, 71, 85, 99] ∧
    ([0, 14, 28, 42, 56, 70, 84, 99] : List ℤ) ≠ [0, 14, 28, 42, 57, 71, 85, 99] := by
  have hdes : desiredFrames 8 2 10 = 8 := by
    unfold desiredFrames pyRound
    norm_num
  have hwin : sampleWindow 100 8 30 10 2 0 = (0, 99) := by
    unfold sampleWindow pyInt
    norm_num
  have hlin : np_linspace 0 99 8 = [0, 99/7, 198/7, 297/7, 396/7, 495/7, 594/7, 99] := by
    unfold np_linspace
    norm_num [List.range_succ]
  refine ⟨?_, ?_, by decide⟩
  · have hmap : (([0, 99/7, 198/7, 297/7, 396/7, 495/7, 594/7, 99] : List ℚ).map pyInt)
        = [0, 14, 28, 42, 56, 70, 84, 99] := by
      simp only [List.map]
      norm_num [pyInt]
    unfold smolvlm_sample_indices_fn
    rw [if_neg (by norm_num), if_neg (by norm_num)]
    dsimp only
    rw [hdes, hwin]
    dsimp only
    rw [show ((8 : ℤ)).toNat = 8 from rfl, hlin, hmap]
    rfl
  · have hmapR : (([0, 99/7, 198/7, 297/7, 396/7, 495/7, 594/7, 99] : List ℚ).map pyRound)
        = [0, 14, 28, 42, 57, 71, 85, 99] := by
      simp only [List.map]
      norm_num [pyRound]
    unfold sample_indices_rounded
    rw [if_neg (by norm_num), if_neg (by norm_num)]
    dsimp only
    rw [hdes, hwin]
    dsimp only
    rw [show ((8 : ℤ)).toNat = 8 from rfl, hlin, hmapR]
    rfl

/-- C3 (amended): for valid metadata the sampler produces the
`desired_frames` evenly spaced values across the final window — inclusive of
both window endpoints once `desired_frames ≥ 2`; `np.linspace` with a single
point yields just the window start — each *truncated toward zero* (not
rounded to nearest), then deduplicated in ascending order, so the returned
count is at most `desired_frames`. -/
theorem sampler_evenly_spaced_truncated (m : VideoMetadata) (max_frames : ℤ) (tf ss : ℚ)
    (htot : 0 < m.total_num_frames) (hdur : 0 < m.duration) :
    ∃ l, smolvlm_sample_indices_fn m max_frames tf ss = .ok l ∧
      l = np_unique ((np_linspace
            (sampleWindow m.total_num_frames max_frames m.fps m.duration tf ss).1
            (sampleWindow m.total_num_frames max_frames m.fps m.duration tf ss).2
            (desiredFrames max_frames tf m.duration).toNat).map pyInt) ∧
      (sampleWindow m.total_num_frames max_frames m.fps m.duration tf ss).1 ∈ l ∧
      (2 ≤ desiredFrames max_frames tf m.duration →
        (sampleWindow m.total_num_frames max_frames m.fps m.duration tf ss).2 ∈ l) ∧
      l.Sorted (· < ·) ∧
      (l.length : ℤ) ≤ desiredFrames max_frames tf m.duration := by
  have hne1 : ¬ m.total_num_frames ≤ 0 := by omega
  have hne2 : ¬ m.duration ≤ 0 := not_le.mpr hdur
  set d := desiredFrames max_frames tf m.duration with hd
  set se := sampleWindow m.total_num_frames max_frames m.fps m.duration tf ss with hsedef
  set lst := (np_linspace se.1 se.2 d.toNat).map pyInt with hlst
  have heq : smolvlm_sample_indices_fn m max_frames tf ss = .ok (np_unique lst) := by
    unfold smolvlm_sample_indices_fn
    rw [if_neg hne1, if_neg hne2]
  obtain ⟨hw0, hw1, hw2⟩ :=
    sampleWindow_bounds m.total_num_frames max_frames m.fps m.duration tf ss (by omega)
  have hd1 : 1 ≤ d := desiredFrames_pos max_frames tf m.duration
  refine ⟨np_unique lst, heq, rfl, ?_, ?_, np_unique_sorted _, ?_⟩
  · rw [mem_np_unique, hlst]
    refine List.mem_map.mpr ⟨(se.1 : ℚ), ?_, pyInt_intCast se.1⟩
    exact np_linspace_start_mem se.1 se.2 (by omega)
  · intro hd2
    rw [mem_np_unique, hlst]
    refine List.mem_map.mpr ⟨(se.2 : ℚ), ?_, pyInt_intCast se.2⟩
    exact np_linspace_stop_mem se.1 se.2 (by omega)
  · have h1 : (np_unique lst).length ≤ lst.length := length_np_unique _
    have h2 : lst.length = d.toNat := by
      rw [hlst, List.length_map, np_linspace_length]
    omega

/-- C3 amended witness: metadata `(100 frames, 30 fps, 10 s)`,
`max_frames = 8`, `target_fps = 2`, `skip_secs = 0` (desired count 8 ≥ 2). -/
theorem sampler_evenly_spaced_truncated_witness :
    (0 < (⟨100, 30, 10⟩ : VideoMetadata).total_num_frames ∧
     0 < (⟨100, 30, 10⟩ : VideoMetadata).duration) ∧
    ∃ l, smolvlm_sample_indices_fn ⟨100, 30, 10⟩ 8 2 0 = .ok l ∧
      l = np_unique ((np_linspace
            (sampleWindow 100 8 30 10 2 0).1 (sampleWindow 100 8 30 10 2 0).2
            (desiredFrames 8 2 10).toNat).map pyInt) ∧
      (sampleWindow 100 8 30 10 2 0).1 ∈ l ∧
      (2 ≤ desiredFrames 8 2 10 → (sampleWindow 100 8 30 10 2 0).2 ∈ l) ∧
      l.Sorted (· < ·) ∧
      (l.length : ℤ) ≤ desiredFrames 8 2 10 :=
  ⟨⟨by decide, by decide⟩,
   sampler_evenly_spaced_truncated ⟨100, 30, 10⟩ 8 2 0 (by decide) (by decide)⟩

/-- A video tensor: leading frame and channel dimensions, trailing spatial
(height, width) dimensions, and a total value function (values at indices
outside the extent are immaterial to the model). -/
structure Tensor4 where
  nf : ℕ
  nc : ℕ
  h : ℕ
  w : ℕ
  data : ℕ → ℕ → ℕ → ℕ → ℚ

/-- A pixel mask as built by `pad`: the channel dimension of the video is
dropped (`video[..., 0, :, :]`), values are `int64`. -/
structure Mask3 where
  nf : ℕ
  h : ℕ
  w : ℕ
  data : ℕ → ℕ → ℕ → ℤ

/-- Modelled from the spec: the torchvision primitive
`F.pad(video, [0, 0, right, bottom], fill=fill)` — padding applied only on
the bottom and right edges (top-left anchored), filled with `fill`
(spec §4.4); the source file only calls this backend primitive. -/
def F_pad (v : Tensor4) (right bottom : ℕ) (fill : ℚ) : Tensor4 :=
  { nf := v.nf, nc := v.nc, h := v.h + bottom, w := v.w + right,
    data := fun f c i j => if i < v.h ∧ j < v.w then v.data f c i j else fill }

/-- Embedding of `SmolVLMVideoProcessor.pad` (lines 245-281): compute the
bottom/right padding amounts, raise if either is negative, skip the pad
operation when the sizes already agree, and build the pixel mask (ones on
the original region of the *padded* video, zeros elsewhere) when
requested. -/
def pad (video : Tensor4) (padded_size : ℕ × ℕ) (fill : ℚ) (return_pixel_mask : Bool) :
    Except String (Tensor4 × Option Mask3) :=
  let original_size := (video.h, video.w)
  let padding_bottom : ℤ := (padded_size.1 : ℤ) - (original_size.1 : ℤ)
  let padding_right : ℤ := (padded_size.2 : ℤ) - (original_size.2 : ℤ)
  if padding_bottom < 0 ∨ padding_right < 0 then
    .error "Padding dimensions are negative."
  else
    let video' := if original_size ≠ padded_size then
        F_pad video padding_right.toNat padding_bottom.toNat fill
      else video
    let pixel_mask : Option Mask3 :=
      if return_pixel_mask then
        some { nf := video'.nf, h := video'.h, w := video'.w,
               data := fun f i j =>
                 if i < original_size.1 ∧ j < original_size.2 then 1 else 0 }
      else none
    .ok (video', pixel_mask)

/-- C8: `pad` fails (raises the padding `ValueError`) if and only if the
requested padded size is smaller than the video's current size in either
dimension; stated for every video, padded size, fill and mask flag, so in
particular no error occurs otherwise (and on error nothing is returned). -/
theorem pad_rejects_iff (video : Tensor4) (padded_size : ℕ × ℕ) (fill : ℚ)
    (return_pixel_mask : Bool) :
    (pad video padded_size fill return_pixel_mask).isOk = false ↔
      padded_size.1 < video.h ∨ padded_size.2 < video.w := by
  simp only [pad]
  by_cases hc : ((padded_size.1 : ℤ) - (video.h : ℤ) < 0 ∨
      (padded_size.2 : ℤ) - (video.w : ℤ) < 0)
  · rw [if_pos hc]
    constructor
    · intro _
      omega
    · intro _
      rfl
  · rw [if_neg hc]
    constructor
    · intro hfalse
      simp [Except.isOk, Except.toBool] at hfalse
    · intro hlt
      omega

/-- C5: for every video and `padded_size ≥ (orig_h, orig_w)` componentwise,
`pad` with `return_pixel_mask = True` succeeds; the mask is 1 exactly on
`[0:orig_h, 0:orig_w]` and 0 elsewhere; the padded video has the padded
shape, keeps the original values on the original region, and equals `fill`
outside it (padding on the bottom/right only); and when the padded size
equals the original size the video is returned unchanged (so the mask is
all ones over its whole extent). -/
theorem pad_correct (video : Tensor4) (ph pw : ℕ) (fill : ℚ)
    (hh : video.h ≤ ph) (hw : video.w ≤ pw) :
    ∃ pv m, pad video (ph, pw) fill true = .ok (pv, some m) ∧
      pv.h = ph ∧ pv.w = pw ∧ pv.nf = video.nf ∧ pv.nc = video.nc ∧
      (∀ f c i j, i < video.h → j < video.w → pv.data f c i j = video.data f c i j) ∧
      (∀ f c i j, ¬ (i < video.h ∧ j < video.w) → (video.h, video.w) ≠ (ph, pw) →
        pv.data f c i j = fill) ∧
      m.nf = video.nf ∧ m.h = ph ∧ m.w = pw ∧
      (∀ f i j, m.data f i j = if i < video.h ∧ j < video.w then 1 else 0) ∧
      ((video.h, video.w) = (ph, pw) → pv = video) := by
  have hc : ¬ (((ph : ℕ) : ℤ) - (video.h : ℤ) < 0 ∨ ((pw : ℕ) : ℤ) - (video.w : ℤ) < 0) := by
    omega
  by_cases heq : (video.h, video.w) = ((ph, pw) : ℕ × ℕ)
  · refine ⟨video,
      { nf := video.nf, h := video.h, w := video.w,
        data := fun f i j => if i < video.h ∧ j < video.w then 1 else 0 }, ?_, ?_, ?_, rfl, rfl,
      fun _ _ _ _ _ _ => rfl, ?_, rfl, ?_, ?_, fun _ _ _ => rfl, fun _ => rfl⟩
    · simp only [pad]
      rw [if_neg hc, if_neg (by simpa using heq)]
      rfl
    · exact (Prod.mk.injEq _ _ _ _ ▸ heq).1
    · exact (Prod.mk.injEq _ _ _ _ ▸ heq).2
    · intro f c i j hn hne
      exact absurd heq hne
    · exact (Prod.mk.injEq _ _ _ _ ▸ heq).1
    · exact (Prod.mk.injEq _ _ _ _ ▸ heq).2
  · have h1 : video.h + (((ph : ℕ) : ℤ) - (video.h : ℤ)).toNat = ph := by omega
    have h2 : video.w + (((pw : ℕ) : ℤ) - (video.w : ℤ)).toNat = pw := by omega
    refine ⟨F_pad video (((pw : ℕ) : ℤ) - (video.w : ℤ)).toNat
        (((ph : ℕ) : ℤ) - (video.h : ℤ)).toNat fill,
      { nf := video.nf, h := ph, w := pw,
        data := fun f i j => if i < video.h ∧ j < video.w then 1 else 0 }, ?_, h1, h2, rfl, rfl,
      ?_, ?_, rfl, rfl, rfl, fun _ _ _ => rfl, fun hcon => absurd hcon heq⟩
    · simp only [pad]
      rw [if_neg hc, if_pos (by simpa using heq)]
      simp only [F_pad, h1, h2]
      rfl
    · intro f c i j hi hj
      simp only [F_pad]
      rw [if_pos ⟨hi, hj⟩]
    · intro f c i j hn _
      simp only [F_pad]
      rw [if_neg hn]

/-- C5 witness: a `1×1×2×2` constant video padded to `(3, 3)`. -/
theorem pad_correct_witness :
    ((⟨1, 1, 2, 2, fun _ _ _ _ => 5⟩ : Tensor4).h ≤ 3 ∧
     (⟨1, 1, 2, 2, fun _ _ _ _ => 5⟩ : Tensor4).w ≤ 3) ∧
    ∃ pv m, pad ⟨1, 1, 2, 2, fun _ _ _ _ => 5⟩ (3, 3) 0 true = .ok (pv, some m) ∧
      pv.h = 3 ∧ pv.w = 3 ∧ pv.nf = 1 ∧ pv.nc = 1 ∧
      (∀ f c i j, i < 2 → j < 2 → pv.data f c i j = 5) ∧
      (∀ f c i j, ¬ (i < 2 ∧ j < 2) → ((2 : ℕ), (2 : ℕ)) ≠ ((3 : ℕ), (3 : ℕ)) →
        pv.data f c i j = 0) ∧
      m.nf = 1 ∧ m.h = 3 ∧ m.w = 3 ∧
      (∀ f i j, m.data f i j = if i < 2 ∧ j < 2 then 1 else 0) ∧
      (((2 : ℕ), (2 : ℕ)) = ((3 : ℕ), (3 : ℕ)) → pv = ⟨1, 1, 2, 2, fun _ _ _ _ => 5⟩) :=
  ⟨⟨by decide, by decide⟩,
   pad_correct ⟨1, 1, 2, 2, fun _ _ _ _ => 5⟩ 3 3 0 (by decide) (by decide)⟩

/-- A shape key: the full dimension tuple of a `Tensor4` (the grouping key). -/
abbrev ShapeKey : Type := ℕ × ℕ × ℕ × ℕ

def shapeOf (v : Tensor4) : ShapeKey := (v.nf, v.nc, v.h, v.w)

/-- Inserting one enumerated element into the group of its shape key,
preserving first-occurrence group order and the original relative order
within each group (one step of the grouping pass). -/
def insertGrouped (s : ShapeKey) (p : ℕ × Tensor4) :
    List (ShapeKey × List (ℕ × Tensor4)) → List (ShapeKey × List (ℕ × Tensor4))
  | [] => [(s, [p])]
  | (s', l) :: rest =>
    if s' = s then (s', l ++ [p]) :: rest else (s', l) :: insertGrouped s p rest

/-- The grouping pass over the enumerated batch. -/
def groupEnum (videos : List Tensor4) : List (ShapeKey × List (ℕ × Tensor4)) :=
  videos.enum.foldl (fun gs p => insertGrouped (shapeOf p.2) p gs) []

/-- Modelled from the spec: (§4.1; the function `group_videos_by_shape` of
`video_utils` is called by the source file but lives outside `src/`):
partition the batch by exact shape equality, stacking each group in original
relative order (a stacked group is modelled as the list of its slices),
together with the index map sending each shape key to the ordered list of
original batch positions of its members. -/
def group_videos_by_shape (videos : List Tensor4) :
    List (ShapeKey × List Tensor4) × List (ShapeKey × List ℕ) :=
  let g := groupEnum videos
  (g.map (fun sl => (sl.1, sl.2.map Prod.snd)), g.map (fun sl => (sl.1, sl.2.map Prod.fst)))

def lookupKey {α : Type} : List (ShapeKey × α) → ShapeKey → Option α
  | [], _ => none
  | (s, x) :: rest, t => if s = t then some x else lookupKey rest t

/-- All (original position, value) pairs recovered from the groups and the
index map. -/
def scatterPairs {α : Type} (grouped : List (ShapeKey × List α))
    (index_map : List (ShapeKey × List ℕ)) : List (ℕ × α) :=
  index_map.flatMap (fun si =>
    match lookupKey grouped si.1 with
    | some vs => si.2.zip vs
    | none => [])

def lookupPos {α : Type} : List (ℕ × α) → ℕ → Option α
  | [], _ => none
  | (i, x) :: rest, p => if i = p then some x else lookupPos rest p

/-- Modelled from the spec: (§4.1; the function `reorder_videos` of
`video_utils` is called by the source file but lives outside `src/`):
unstack each group and scatter the elements back to their original batch
positions, producing a sequence of the original batch length. -/
def reorder_videos {α : Type} (grouped : List (ShapeKey × List α))
    (index_map : List (ShapeKey × List ℕ)) : List α :=
  (List.range (scatterPairs grouped index_map).length).filterMap
    (lookupPos (scatterPairs grouped index_map))

def allPairs {β : Type} (gs : List (ShapeKey × List β)) : List β := gs.flatMap Prod.snd

theorem map_fst_insertGrouped (s : ShapeKey) (p : ℕ × Tensor4) :
    ∀ gs, (insertGrouped s p gs).map Prod.fst =
      if s ∈ gs.map Prod.fst then gs.map Prod.fst else gs.map Prod.fst ++ [s] := by
  intro gs
  induction gs with
  | nil => simp [insertGrouped]
  | cons hd rest ih =>
    obtain ⟨s', l⟩ := hd
    by_cases h : s' = s
    · have hred : insertGrouped s p ((s', l) :: rest) = (s', l ++ [p]) :: rest := by
        simp [insertGrouped, h]
      rw [hred]
      simp [h]
    · have hred : insertGrouped s p ((s', l) :: rest) = (s', l) :: insertGrouped s p rest := by
        simp [insertGrouped, h]
      rw [hred]
      simp only [List.map_cons]
      rw [ih]
      by_cases hmem : s ∈ rest.map Prod.fst
      · rw [if_pos hmem, if_pos (List.mem_cons_of_mem _ hmem)]
      · have hnot : s ∉ (s' :: rest.map Prod.fst) := by
          intro hcon
          rcases List.mem_cons.mp hcon with h1 | h1
          · exact h h1.symm
          · exact hmem h1
        rw [if_neg hmem, if_neg hnot]
        simp

theorem nodup_map_fst_insertGrouped (s : ShapeKey) (p : ℕ × Tensor4)
    (gs : List (ShapeKey × List (ℕ × Tensor4))) (h : (gs.map Prod.fst).Nodup) :
    ((insertGrouped s p gs).map Prod.fst).Nodup := by
  rw [map_fst_insertGrouped]
  by_cases hmem : s ∈ gs.map Prod.fst
  · rwa [if_pos hmem]
  · rw [if_neg hmem]
    simp [List.nodup_append, h, hmem]

theorem nodup_map_fst_groupEnum (videos : List Tensor4) :
    ((groupEnum videos).map Prod.fst).Nodup := by
  unfold groupEnum
  have main : ∀ (ps : List (ℕ × Tensor4)) (gs : List (ShapeKey × List (ℕ × Tensor4))),
      (gs.map Prod.fst).Nodup →
      ((ps.foldl (fun gs p => insertGrouped (shapeOf p.2) p gs) gs).map Prod.fst).Nodup := by
    intro ps
    induction ps with
    | nil => intro gs h; exact h
    | cons p rest ih =>
      intro gs h
      exact ih _ (nodup_map_fst_insertGrouped _ _ _ h)
  exact main videos.enum [] (by simp)

theorem allPairs_insertGrouped (s : ShapeKey) (p : ℕ × Tensor4) :
    ∀ gs, (allPairs (insertGrouped s p gs)).Perm (p :: allPairs gs) := by
  intro gs
  induction gs with
  | nil => simp [insertGrouped, allPairs]
  | cons hd rest ih =>
    obtain ⟨s', l⟩ := hd
    by_cases h : s' = s
    · have hred : insertGrouped s p ((s', l) :: rest) = (s', l ++ [p]) :: rest := by
        simp [insertGrouped, h]
      rw [hred]
      simp only [allPairs, List.flatMap_cons]
      have heq : (l ++ [p]) ++ rest.flatMap Prod.snd = l ++ (p :: rest.flatMap Prod.snd) := by
        simp
      rw [heq]
      exact List.perm_middle
    · have hred : insertGrouped s p ((s', l) :: rest) = (s', l) :: insertGrouped s p rest := by
        simp [insertGrouped, h]
      rw [hred]
      simp only [allPairs, List.flatMap_cons]
      have ih' : ((insertGrouped s p rest).flatMap Prod.snd).Perm
          (p :: rest.flatMap Prod.snd) := by
        simpa [allPairs] using ih
      exact (ih'.append_left l).trans List.perm_middle

theorem allPairs_groupEnum (videos : List Tensor4) :
    (allPairs (groupEnum videos)).Perm videos.enum := by
  unfold groupEnum
  have main : ∀ (ps : List (ℕ × Tensor4)) (gs : List (ShapeKey × List (ℕ × Tensor4))),
      (allPairs (ps.foldl (fun gs p => insertGrouped (shapeOf p.2) p gs) gs)).Perm
        (ps ++ allPairs gs) := by
    intro ps
    induction ps with
    | nil => intro gs; simp
    | cons p rest ih =>
      intro gs
      have h1 := ih (insertGrouped (shapeOf p.2) p gs)
      have h2 : (rest ++ allPairs (insertGrouped (shapeOf p.2) p gs)).Perm
          (rest ++ (p :: allPairs gs)) :=
        (allPairs_insertGrouped _ _ gs).append_left rest
      have h3 : (rest ++ (p :: allPairs gs)).Perm (p :: (rest ++ allPairs gs)) :=
        List.perm_middle
      exact ((h1.trans h2).trans h3)
  simpa [allPairs] using main videos.enum []

theorem zip_map_fst_snd {α : Type} : ∀ (l : List (ℕ × α)),
    (l.map Prod.fst).zip (l.map Prod.snd) = l := by
  intro l
  induction l with
  | nil => rfl
  | cons hd rest ih =>
    obtain ⟨i, x⟩ := hd
    simp [List.zip_cons_cons, ih]

theorem lookupKey_cons_ne {α : Type} (s : ShapeKey) (x : α)
    (rest : List (ShapeKey × α)) (t : ShapeKey) (h : s ≠ t) :
    lookupKey ((s, x) :: rest) t = lookupKey rest t := by
  simp [lookupKey, h]

theorem scatterPairs_cons_notmem {α : Type} (hd : ShapeKey × List α)
    (grouped : List (ShapeKey × List α)) (index_map : List (ShapeKey × List ℕ))
    (h : ∀ si ∈ index_map, si.1 ≠ hd.1) :
    scatterPairs (hd :: grouped) index_map = scatterPairs grouped index_map := by
  induction index_map with
  | nil => rfl
  | cons si rest ih =>
    obtain ⟨hs, hx⟩ := hd
    simp only [scatterPairs, List.flatMap_cons]
    rw [lookupKey_cons_ne hs hx grouped si.1 (fun hcon => (h si (List.mem_cons_self si rest)) hcon.symm)]
    have ih' := ih (fun t ht => h t (List.mem_cons_of_mem si ht))
    simp only [scatterPairs] at ih'
    rw [ih']

theorem scatterPairs_group :
    ∀ g : List (ShapeKey × List (ℕ × Tensor4)), (g.map Prod.fst).Nodup →
      scatterPairs (g.map (fun sl => (sl.1, sl.2.map Prod.snd)))
        (g.map (fun sl => (sl.1, sl.2.map Prod.fst))) = allPairs g := by
  intro g
  induction g with
  | nil => intro _; rfl
  | cons hd rest ih =>
    intro hnd
    obtain ⟨s, l⟩ := hd
    simp only [List.map_cons] at hnd ⊢
    have hnotmem : s ∉ rest.map Prod.fst := (List.nodup_cons.mp hnd).1
    have hndrest : (rest.map Prod.fst).Nodup := (List.nodup_cons.mp hnd).2
    simp only [scatterPairs, List.flatMap_cons]
    rw [show lookupKey ((s, l.map Prod.snd) :: rest.map (fun sl => (sl.1, sl.2.map Prod.snd))) s
        = some (l.map Prod.snd) by simp [lookupKey]]
    have htail : ∀ si ∈ rest.map (fun sl => (sl.1, sl.2.map Prod.fst)),
        si.1 ≠ ((s, l.map Prod.snd) : ShapeKey × List Tensor4).1 := by
      intro si hsi
      obtain ⟨sl, hsl, rfl⟩ := List.mem_map.mp hsi
      intro hcon
      have hcon' : sl.1 = s := hcon
      have h1 : sl.1 ∈ rest.map Prod.fst := List.mem_map.mpr ⟨sl, hsl, rfl⟩
      rw [hcon'] at h1
      exact hnotmem h1
    have hskip := scatterPairs_cons_notmem (s, l.map Prod.snd)
      (rest.map (fun sl => (sl.1, sl.2.map Prod.snd)))
      (rest.map (fun sl => (sl.1, sl.2.map Prod.fst))) htail
    simp only [scatterPairs] at hskip
    rw [hskip]
    have ihflat := ih hndrest
    simp only [scatterPairs] at ihflat
    rw [ihflat]
    show (l.map Prod.fst).zip (l.map Prod.snd) ++ allPairs rest = allPairs ((s, l) :: rest)
    rw [zip_map_fst_snd]
    simp only [allPairs, List.flatMap_cons]

theorem lookupPos_eq_some_mem {α : Type} {l : List (ℕ × α)} {k : ℕ} {x : α}
    (h : lookupPos l k = some x) : (k, x) ∈ l := by
  induction l with
  | nil => cases h
  | cons hd rest ih =>
    obtain ⟨i, y⟩ := hd
    by_cases hik : i = k
    · subst hik
      simp only [lookupPos, if_pos rfl] at h
      cases h
      exact List.mem_cons_self _ _
    · simp only [lookupPos, if_neg hik] at h
      exact List.mem_cons_of_mem _ (ih h)

theorem lookupPos_eq_none_notmem {α : Type} {l : List (ℕ × α)} {k : ℕ}
    (h : lookupPos l k = none) : ∀ x, (k, x) ∉ l := by
  induction l with
  | nil => intro x hx; cases hx
  | cons hd rest ih =>
    obtain ⟨i, y⟩ := hd
    by_cases hik : i = k
    · subst hik
      simp [lookupPos] at h
    · simp only [lookupPos, if_neg hik] at h
      intro x hx
      rcases List.mem_cons.mp hx with h1 | h1
      · exact hik (congrArg Prod.fst h1).symm
      · exact ih h x h1

theorem filterMap_eq_map_of_forall {α β : Type} {f : α → Option β} {g : α → β} :
    ∀ (l : List α), (∀ x ∈ l, f x = some (g x)) → l.filterMap f = l.map g := by
  intro l
  induction l with
  | nil => intro _; rfl
  | cons hd rest ih =>
    intro h
    rw [List.filterMap_cons, h hd (List.mem_cons_self hd rest), List.map_cons,
      ih (fun x hx => h x (List.mem_cons_of_mem hd hx))]

/-- The default tensor used only to state total lookups in proofs. -/
def defaultTensor : Tensor4 := ⟨0, 0, 0, 0, fun _ _ _ _ => 0⟩

/-- C7: the grouping round-trip — reordering the groups produced by
shape-grouping with the accompanying index map yields exactly the original
batch: same length, same order, same values. -/
theorem reorder_group_roundtrip (videos : List Tensor4) :
    reorder_videos (group_videos_by_shape videos).1 (group_videos_by_shape videos).2 =
      videos := by
  have hP : scatterPairs (group_videos_by_shape videos).1 (group_videos_by_shape videos).2 =
      allPairs (groupEnum videos) :=
    scatterPairs_group (groupEnum videos) (nodup_map_fst_groupEnum videos)
  have hperm : (scatterPairs (group_videos_by_shape videos).1
      (group_videos_by_shape videos).2).Perm videos.enum := by
    rw [hP]
    exact allPairs_groupEnum videos
  have hlen : (scatterPairs (group_videos_by_shape videos).1
      (group_videos_by_shape videos).2).length = videos.length := by
    rw [hperm.length_eq, List.enum_length]
  have hlook : ∀ p ∈ List.range videos.length,
      lookupPos (scatterPairs (group_videos_by_shape videos).1
        (group_videos_by_shape videos).2) p = some (videos.getD p defaultTensor) := by
    intro p hp
    have hplt : p < videos.length := List.mem_range.mp hp
    have hmem : (p, videos.getD p defaultTensor) ∈ videos.enum := by
      rw [List.mem_enum_iff_getElem?]
      rw [List.getD_eq_getElem videos defaultTensor hplt]
      exact List.getElem?_eq_getElem hplt
    have hmemP : (p, videos.getD p defaultTensor) ∈
        scatterPairs (group_videos_by_shape videos).1 (group_videos_by_shape videos).2 :=
      hperm.mem_iff.mpr hmem
    cases hcase : lookupPos (scatterPairs (group_videos_by_shape videos).1
        (group_videos_by_shape videos).2) p with
    | none => exact absurd hmemP (lookupPos_eq_none_notmem hcase _)
    | some x =>
      have hxmem := lookupPos_eq_some_mem hcase
      have hxenum := hperm.mem_iff.mp hxmem
      rw [List.mem_enum_iff_getElem?] at hxenum
      have : videos.getD p defaultTensor = x := by
        rw [List.getD_eq_getElem videos defaultTensor hplt]
        have := List.getElem?_eq_getElem (l := videos) hplt
        rw [this] at hxenum
        exact (Option.some.injEq _ _ ▸ hxenum)
      rw [this]
  unfold reorder_videos
  rw [hlen, filterMap_eq_map_of_forall (List.range videos.length) hlook]
  apply List.ext_getElem?
  intro i
  rw [List.getElem?_map]
  by_cases hi : i < videos.length
  · rw [List.getElem?_range hi]
    show some (videos.getD i defaultTensor) = videos[i]?
    rw [List.getD_eq_getElem videos defaultTensor hi, List.getElem?_eq_getElem hi]
  · rw [List.getElem?_eq_none (by simpa using hi), List.getElem?_eq_none
      (by simpa [List.length_range] using hi)]
    rfl

/-- Torchvision interpolation filter modes. -/
inductive InterpolationMode
  | nearest
  | nearest_exact
  | bilinear
  | bicubic
  | box
  | hamming
  | lanczos
deriving DecidableEq

/-- `SizeDict`: the sizing specification. A missing key reads as `None`
(attribute access on `SizeDict` returns `None` for absent keys) and `0` is
falsy in the Python truthiness tests of `resize`. -/
structure SizeDict where
  longest_edge : Option ℕ := none
  height : Option ℕ := none
  width : Option ℕ := none

/-- Python truthiness of an optional integer: `None` and `0` are falsy. -/
def truthy : Option ℕ → Bool
  | none => false
  | some n => n != 0

/-- Lines 223-230 of `resize`: default the filter to BILINEAR when `None`,
and substitute BICUBIC for the unsupported LANCZOS filter, emitting a
one-time warning (the returned flag records whether the warning fired). -/
def resolveInterpolation (interpolation : Option InterpolationMode) :
    InterpolationMode × Bool :=
  let i := interpolation.getD InterpolationMode.bilinear
  if i = InterpolationMode.lanczos then (InterpolationMode.bicubic, true) else (i, false)

/-- The backend's interpolation kernel, abstracted: given the filter, the
antialias flag, the input video and the target size, it produces the pixel
values of the resized tensor. -/
abbrev InterpValues : Type :=
  InterpolationMode → Bool → Tensor4 → ℕ × ℕ → ℕ → ℕ → ℕ → ℕ → ℚ

/-- Modelled from the spec: (§6) the tensor-backend resize primitive
`F.resize` — a resampled tensor with identical non-spatial dimensions and
the requested spatial size; pixel values are backend-defined, abstracted as
the parameter `interpValues`. -/
def F_resize (interpValues : InterpValues) (interp : InterpolationMode) (antialias : Bool)
    (v : Tensor4) (new_size : ℕ × ℕ) : Tensor4 :=
  { nf := v.nf, nc := v.nc, h := new_size.1, w := new_size.2,
    data := interpValues interp antialias v new_size }

/-- Embedding of `SmolVLMVideoProcessor.resize` (lines 203-243): resolve the
interpolation filter (LANCZOS fallback), then compute the target size from
`longest_edge` (aspect-preserving) or from exact `height`/`width`, else
raise; finally call the backend resize.  In the `longest_edge` path the
source calls `get_resize_output_image_size`, whose line
`aspect_ratio = width / height` raises `ZeroDivisionError` when the video
height is 0; the guard below models that raise (the pure Lean
`get_resize_output_image_size` is total, so the error path is restored
here, at the call site). -/
def resize (interpValues : InterpValues) (video : Tensor4) (size : SizeDict)
    (interpolation : Option InterpolationMode) (antialias : Bool) : Except String Tensor4 :=
  let interp := (resolveInterpolation interpolation).1
  if truthy size.longest_edge then
    if video.h = 0 then
      .error "ZeroDivisionError: division by zero in aspect_ratio = width / height"
    else
      let new_size := get_resize_output_image_size video.h video.w (size.longest_edge.getD 0)
      .ok (F_resize interpValues interp antialias video new_size)
  else if truthy size.height && truthy size.width then
    .ok (F_resize interpValues interp antialias video (size.height.getD 0, size.width.getD 0))
  else
    .error "Size must contain height and width keys, or longest_edge key."

/-- C10: requesting the unsupported LANCZOS filter is never itself an error:
it is substituted by BICUBIC with the one-time warning flag set, and the
result — success or failure alike — is identical to calling `resize` with
BICUBIC directly (for every video, size spec, antialias flag and backend
kernel); moreover, for a video of positive height and a valid size spec the
call succeeds, so the only errors `resize` can raise (an invalid size spec,
or the zero-height `ZeroDivisionError` of the aspect-ratio computation) are
independent of the requested filter. -/
theorem resize_lanczos_fallback (interpValues : InterpValues) (video : Tensor4)
    (size : SizeDict) (antialias : Bool) :
    resolveInterpolation (some InterpolationMode.lanczos) =
      (InterpolationMode.bicubic, true) ∧
    resize interpValues video size (some InterpolationMode.lanczos) antialias =
      resize interpValues video size (some InterpolationMode.bicubic) antialias ∧
    (0 < video.h →
      (truthy size.longest_edge = true ∨
        (truthy size.height = true ∧ truthy size.width = true)) →
      (resize interpValues video size (some InterpolationMode.lanczos) antialias).isOk
        = true) := by
  refine ⟨rfl, rfl, ?_⟩
  intro hpos hvalid
  unfold resize
  by_cases h1 : truthy size.longest_edge = true
  · rw [if_pos h1, if_neg (by omega : ¬ video.h = 0)]
    rfl
  · rcases hvalid with h | ⟨hh, hw⟩
    · exact absurd h h1
    · rw [if_neg h1, if_pos (by rw [hh, hw]; rfl)]
      rfl

/-- C10 witness: LANCZOS request on a `1×3×4×6` video with a valid
`longest_edge` size spec. -/
theorem resize_lanczos_fallback_witness :
    (0 < (⟨1, 3, 4, 6, fun _ _ _ _ => 0⟩ : Tensor4).h ∧
     (truthy (⟨some 10, none, none⟩ : SizeDict).longest_edge = true ∨
      (truthy (⟨some 10, none, none⟩ : SizeDict).height = true ∧
       truthy (⟨some 10, none, none⟩ : SizeDict).width = true))) ∧
    (resize (fun _ _ _ _ _ _ _ _ => 0) ⟨1, 3, 4, 6, fun _ _ _ _ => 0⟩ ⟨some 10, none, none⟩
      (some InterpolationMode.lanczos) true).isOk = true :=
  ⟨⟨by decide, Or.inl (by rfl)⟩,
   (resize_lanczos_fallback (fun _ _ _ _ _ _ _ _ => 0) ⟨1, 3, 4, 6, fun _ _ _ _ => 0⟩
     ⟨some 10, none, none⟩ true).2.2 (by decide) (Or.inl (by rfl))⟩

/-- The backend's color conversion, abstracted: the pixel values of the
converted 3-channel tensor. -/
abbrev RgbValues : Type := Tensor4 → ℕ → ℕ → ℕ → ℕ → ℚ

/-- Modelled from the spec: (§6) `convert_to_rgb` — any channel layout
becomes 3-channel RGB, shape otherwise preserved; values backend-defined
(the method is inherited from the base processor, outside `src/`). -/
def convert_to_rgb (rgbValues : RgbValues) (v : Tensor4) : Tensor4 :=
  { nf := v.nf, nc := 3, h := v.h, w := v.w, data := rgbValues v }

/-- Modelled from the spec: (§4.3) `rescale_and_normalize` — multiply by
`rescale_factor` when `do_rescale`, then per-channel `(x - mean) / std` when
`do_normalize`; no shape change (inherited from the base processor, outside
`src/`). -/
def rescale_and_normalize (v : Tensor4) (do_rescale : Bool) (rescale_factor : ℚ)
    (do_normalize : Bool) (image_mean image_std : ℕ → ℚ) : Tensor4 :=
  { v with data := fun f c i j =>
      let x := v.data f c i j
      let x' := if do_rescale then x * rescale_factor else x
      if do_normalize then (x' - image_mean c) / image_std c else x' }

/-- Embedding of `get_max_height_width` (lines 131-140): the maximum height
and width across all videos of a batch.  The Python fold starts at
`float("-inf")`; over natural-number dimensions starting the fold at 0
returns the same pair whenever the batch is nonempty, and for an empty
batch the value is never consumed downstream (there are then no groups to
pad). -/
def get_max_height_width (videos : List Tensor4) : ℕ × ℕ :=
  videos.foldl (fun acc v => (max acc.1 v.h, max acc.2 v.w)) (0, 0)

/-- First grouped stage of `_preprocess` (lines 299-308): group by shape,
optionally convert each group to RGB and resize it, then reorder back to
batch order. -/
def resizeConvertStage (interpValues : InterpValues) (rgbValues : RgbValues)
    (videos : List Tensor4) (do_convert_rgb do_resize : Bool) (size : SizeDict)
    (interpolation : Option InterpolationMode) : Except String (List Tensor4) := do
  let grouped := group_videos_by_shape videos
  let resized ← grouped.1.mapM (fun sl => do
    let vs := if do_convert_rgb then sl.2.map (convert_to_rgb rgbValues) else sl.2
    let vs' ← if do_resize then
        vs.mapM (fun v => resize interpValues v size interpolation true)
      else pure vs
    pure (sl.1, vs'))
  pure (reorder_videos resized grouped.2)

/-- Second grouped stage of `_preprocess` (lines 310-318): regroup,
rescale-and-normalize each group, reorder back to batch order. -/
def normalizeStage (videos : List Tensor4) (do_rescale : Bool) (rescale_factor : ℚ)
    (do_normalize : Bool) (image_mean image_std : ℕ → ℚ) : List Tensor4 :=
  let grouped := group_videos_by_shape videos
  reorder_videos
    (grouped.1.map (fun sl => (sl.1, sl.2.map (fun v =>
      rescale_and_normalize v do_rescale rescale_factor do_normalize image_mean image_std))))
    grouped.2

/-- Padding stage of `_preprocess` (lines 320-332): compute the single
global padded size over the whole post-normalize batch, regroup, pad every
group to that one size collecting the pixel masks, reorder both. -/
def padStage (videos : List Tensor4) : Except String (List Tensor4 × List (Option Mask3)) := do
  let pad_size := get_max_height_width videos
  let grouped := group_videos_by_shape videos
  let padded ← grouped.1.mapM (fun sl => do
    let pairs ← sl.2.mapM (fun v => pad v pad_size 0 true)
    pure (sl.1, pairs))
  pure (reorder_videos (padded.map (fun sl => (sl.1, sl.2.map Prod.fst))) grouped.2,
        reorder_videos (padded.map (fun sl => (sl.1, sl.2.map Prod.snd))) grouped.2)

/-- Embedding of `SmolVLMVideoProcessor._preprocess` (lines 283-343),
without the final optional `torch.stack`/`BatchFeature` wrapping: the
result is the list of processed videos and, when `do_pad`, the list of
per-video pixel masks. -/
def _preprocess (interpValues : InterpValues) (rgbValues : RgbValues)
    (videos : List Tensor4) (do_convert_rgb do_resize : Bool) (size : SizeDict)
    (interpolation : Option InterpolationMode) (do_rescale : Bool) (rescale_factor : ℚ)
    (do_normalize do_pad : Bool) (image_mean image_std : ℕ → ℚ) :
    Except String (List Tensor4 × Option (List (Option Mask3))) := do
  let resized ← resizeConvertStage interpValues rgbValues videos do_convert_rgb do_resize
    size interpolation
  let processed := normalizeStage resized do_rescale rescale_factor do_normalize
    image_mean image_std
  if do_pad then do
    let om ← padStage processed
    pure (om.1, some om.2)
  else
    pure (processed, none)

theorem foldl_max_acc_le (l : List Tensor4) :
    ∀ acc : ℕ × ℕ,
      acc.1 ≤ (l.foldl (fun acc v => (max acc.1 v.h, max acc.2 v.w)) acc).1 ∧
      acc.2 ≤ (l.foldl (fun acc v => (max acc.1 v.h, max acc.2 v.w)) acc).2 := by
  induction l with
  | nil => intro acc; exact ⟨le_refl _, le_refl _⟩
  | cons v rest ih =>
    intro acc
    simp only [List.foldl_cons]
    have h := ih (max acc.1 v.h, max acc.2 v.w)
    exact ⟨le_trans (le_max_left _ _) h.1, le_trans (le_max_left _ _) h.2⟩

theorem mem_le_foldl_max (l : List Tensor4) :
    ∀ (acc : ℕ × ℕ) (v : Tensor4), v ∈ l →
      v.h ≤ (l.foldl (fun acc v => (max acc.1 v.h, max acc.2 v.w)) acc).1 ∧
      v.w ≤ (l.foldl (fun acc v => (max acc.1 v.h, max acc.2 v.w)) acc).2 := by
  induction l with
  | nil => intro acc v hv; cases hv
  | cons u rest ih =>
    intro acc v hv
    simp only [List.foldl_cons]
    rcases List.mem_cons.mp hv with h | h
    · subst h
      have hacc := foldl_max_acc_le rest (max acc.1 v.h, max acc.2 v.w)
      exact ⟨le_trans (le_max_right _ _) hacc.1, le_trans (le_max_right _ _) hacc.2⟩
    · exact ih _ v h

theorem get_max_height_width_dominates (videos : List Tensor4) :
    ∀ v ∈ videos, v.h ≤ (get_max_height_width videos).1 ∧
      v.w ≤ (get_max_height_width videos).2 :=
  fun v hv => mem_le_foldl_max videos (0, 0) v hv

theorem foldl_max_mem_fst (l : List Tensor4) :
    ∀ acc : ℕ × ℕ,
      (l.foldl (fun acc v => (max acc.1 v.h, max acc.2 v.w)) acc).1 = acc.1 ∨
      (l.foldl (fun acc v => (max acc.1 v.h, max acc.2 v.w)) acc).1 ∈ l.map Tensor4.h := by
  induction l with
  | nil => intro acc; exact Or.inl rfl
  | cons v rest ih =>
    intro acc
    simp only [List.foldl_cons, List.map_cons]
    rcases ih (max acc.1 v.h, max acc.2 v.w) with h | h
    · rcases max_choice acc.1 v.h with h1 | h1
      · exact Or.inl (h.trans h1)
      · refine Or.inr ?_
        rw [h.trans h1]
        exact List.mem_cons_self _ _
    · exact Or.inr (List.mem_cons_of_mem _ h)

theorem foldl_max_mem_snd (l : List Tensor4) :
    ∀ acc : ℕ × ℕ,
      (l.foldl (fun acc v => (max acc.1 v.h, max acc.2 v.w)) acc).2 = acc.2 ∨
      (l.foldl (fun acc v => (max acc.1 v.h, max acc.2 v.w)) acc).2 ∈ l.map Tensor4.w := by
  induction l with
  | nil => intro acc; exact Or.inl rfl
  | cons v rest ih =>
    intro acc
    simp only [List.foldl_cons, List.map_cons]
    rcases ih (max acc.1 v.h, max acc.2 v.w) with h | h
    · rcases max_choice acc.2 v.w with h1 | h1
      · exact Or.inl (h.trans h1)
      · refine Or.inr ?_
        rw [h.trans h1]
        exact List.mem_cons_self _ _
    · exact Or.inr (List.mem_cons_of_mem _ h)

theorem get_max_height_width_attained (videos : List Tensor4) (hne : videos ≠ []) :
    (get_max_height_width videos).1 ∈ videos.map Tensor4.h ∧
    (get_max_height_width videos).2 ∈ videos.map Tensor4.w := by
  obtain ⟨v0, rest, rfl⟩ := List.exists_cons_of_ne_nil hne
  have hd := get_max_height_width_dominates (v0 :: rest) v0 (List.mem_cons_self _ _)
  constructor
  · rcases foldl_max_mem_fst (v0 :: rest) (0, 0) with h | h
    · have hz : v0.h = 0 := by
        have := hd.1
        unfold get_max_height_width at this
        omega
      unfold get_max_height_width
      rw [h]
      rw [List.map_cons, ← hz]
      exact List.mem_cons_self _ _
    · exact h
  · rcases foldl_max_mem_snd (v0 :: rest) (0, 0) with h | h
    · have hz : v0.w = 0 := by
        have := hd.2
        unfold get_max_height_width at this
        omega
      unfold get_max_height_width
      rw [h]
      rw [List.map_cons, ← hz]
      exact List.mem_cons_self _ _
    · exact h

theorem exceptIsOk_exists {ε α : Type} {x : Except ε α} (h : x.isOk = true) :
    ∃ y, x = .ok y := by
  cases x with
  | ok y => exact ⟨y, rfl⟩
  | error e => cases h

theorem mapM_ok_of_forall {α β : Type} (f : α → Except String β) :
    ∀ l : List α, (∀ x ∈ l, (f x).isOk = true) → ∃ ys, l.mapM f = .ok ys := by
  intro l
  induction l with
  | nil =>
    intro _
    exact ⟨[], List.mapM_nil f⟩
  | cons hd rest ih =>
    intro h
    obtain ⟨y, hy⟩ := exceptIsOk_exists (h hd (List.mem_cons_self _ _))
    obtain ⟨ys, hys⟩ := ih (fun x hx => h x (List.mem_cons_of_mem _ hx))
    refine ⟨y :: ys, ?_⟩
    rw [List.mapM_cons, hy]
    show (rest.mapM f >>= fun xs => pure (y :: xs)) = Except.ok (y :: ys)
    rw [hys]
    rfl

theorem pad_isOk_of_le (video : Tensor4) (ps : ℕ × ℕ) (fill : ℚ) (rm : Bool)
    (h1 : video.h ≤ ps.1) (h2 : video.w ≤ ps.2) :
    (pad video ps fill rm).isOk = true := by
  simp only [pad]
  rw [if_neg (show ¬ ((ps.1 : ℤ) - (video.h : ℤ) < 0 ∨ (ps.2 : ℤ) - (video.w : ℤ) < 0)
    by omega)]
  rfl

theorem mem_group_mem (videos : List Tensor4) :
    ∀ sl ∈ (group_videos_by_shape videos).1, ∀ v ∈ sl.2, v ∈ videos := by
  intro sl hsl v hv
  simp only [group_videos_by_shape] at hsl
  obtain ⟨gl, hgl, rfl⟩ := List.mem_map.mp hsl
  simp only at hv
  obtain ⟨p, hp, rfl⟩ := List.mem_map.mp hv
  have hpairs : p ∈ allPairs (groupEnum videos) := List.mem_flatMap.mpr ⟨gl, hgl, hp⟩
  have henum : p ∈ videos.enum := (allPairs_groupEnum videos).mem_iff.mp hpairs
  rw [List.mem_enum_iff_getElem?] at henum
  obtain ⟨hlt, heq⟩ := List.getElem?_eq_some.mp henum
  rw [← heq]
  exact List.getElem_mem hlt

theorem padStage_isOk (videos : List Tensor4) : (padStage videos).isOk = true := by
  have hdom := get_max_height_width_dominates videos
  have houter : ∀ sl ∈ (group_videos_by_shape videos).1,
      ((sl.2.mapM (fun v => pad v (get_max_height_width videos) 0 true) >>= fun pairs =>
        pure (sl.1, pairs) :
          Except String (ShapeKey × List (Tensor4 × Option Mask3))).isOk) = true := by
    intro sl hsl
    have hinner : ∀ v ∈ sl.2, (pad v (get_max_height_width videos) 0 true).isOk = true := by
      intro v hv
      have hmem := mem_group_mem videos sl hsl v hv
      exact pad_isOk_of_le v _ 0 true (hdom v hmem).1 (hdom v hmem).2
    obtain ⟨ys, hys⟩ := mapM_ok_of_forall _ sl.2 hinner
    rw [hys]
    rfl
  obtain ⟨gs, hgs⟩ := mapM_ok_of_forall
    (fun (sl : ShapeKey × List Tensor4) =>
      sl.2.mapM (fun v => pad v (get_max_height_width videos) 0 true) >>=
        fun pairs => pure (sl.1, pairs))
    (group_videos_by_shape videos).1 houter
  simp only [padStage]
  show ((group_videos_by_shape videos).1.mapM
      (fun (sl : ShapeKey × List Tensor4) =>
        sl.2.mapM (fun v => pad v (get_max_height_width videos) 0 true) >>=
          fun pairs => pure (sl.1, pairs)) >>= fun padded =>
      pure (reorder_videos (padded.map
              (fun (sl : ShapeKey × List (Tensor4 × Option Mask3)) =>
                (sl.1, sl.2.map Prod.fst)))
              (group_videos_by_shape videos).2,
            reorder_videos (padded.map
              (fun (sl : ShapeKey × List (Tensor4 × Option Mask3)) =>
                (sl.1, sl.2.map Prod.snd)))
              (group_videos_by_shape videos).2)).isOk = true
  rw [hgs]
  rfl

/-- C6: in the batch pipeline with `do_pad = True`, the single padded size is
the componentwise maximum over the *entire* post-normalize batch: it
dominates every video of that batch, each of its components is attained by
some video when the batch is nonempty, the padding stage therefore never
raises, and consequently `_preprocess` with `do_pad = True` succeeds
whenever its resize stage does. -/
theorem preprocess_global_pad_size (processed : List Tensor4) :
    (∀ v ∈ processed, v.h ≤ (get_max_height_width processed).1 ∧
      v.w ≤ (get_max_height_width processed).2) ∧
    (processed ≠ [] → (get_max_height_width processed).1 ∈ processed.map Tensor4.h ∧
      (get_max_height_width processed).2 ∈ processed.map Tensor4.w) ∧
    (padStage processed).isOk = true ∧
    (∀ (interpValues : InterpValues) (rgbValues : RgbValues) (videos : List Tensor4)
        (do_convert_rgb do_resize : Bool) (size : SizeDict)
        (interpolation : Option InterpolationMode) (do_rescale : Bool) (rescale_factor : ℚ)
        (do_normalize : Bool) (image_mean image_std : ℕ → ℚ) (r : List Tensor4),
      resizeConvertStage interpValues rgbValues videos do_convert_rgb do_resize size
        interpolation = .ok r →
      (_preprocess interpValues rgbValues videos do_convert_rgb do_resize size interpolation
        do_rescale rescale_factor do_normalize true image_mean image_std).isOk = true) := by
  refine ⟨get_max_height_width_dominates processed,
    get_max_height_width_attained processed, padStage_isOk processed, ?_⟩
  intro interpValues rgbValues videos do_convert_rgb do_resize size interpolation do_rescale
    rescale_factor do_normalize image_mean image_std r hres
  unfold _preprocess
  rw [hres]
  show ((padStage (normalizeStage r do_rescale rescale_factor do_normalize image_mean
      image_std)) >>= fun om => pure (om.1, some om.2)).isOk = true
  obtain ⟨om, hom⟩ := exceptIsOk_exists (padStage_isOk
    (normalizeStage r do_rescale rescale_factor do_normalize image_mean image_std))
  rw [hom]
  rfl

/-- C6 witness: a nonempty two-video batch for the padded-size parts, and an
empty batch (whose resize stage reduces to `.ok []`) for the pipeline
success part. -/
theorem preprocess_global_pad_size_witness :
    (∀ v ∈ [(⟨1, 3, 2, 5, fun _ _ _ _ => 1⟩ : Tensor4), ⟨1, 3, 4, 3, fun _ _ _ _ => 2⟩],
      v.h ≤ (get_max_height_width [(⟨1, 3, 2, 5, fun _ _ _ _ => 1⟩ : Tensor4),
        ⟨1, 3, 4, 3, fun _ _ _ _ => 2⟩]).1 ∧
      v.w ≤ (get_max_height_width [(⟨1, 3, 2, 5, fun _ _ _ _ => 1⟩ : Tensor4),
        ⟨1, 3, 4, 3, fun _ _ _ _ => 2⟩]).2) ∧
    (padStage [(⟨1, 3, 2, 5, fun _ _ _ _ => 1⟩ : Tensor4),
      ⟨1, 3, 4, 3, fun _ _ _ _ => 2⟩]).isOk = true ∧
    resizeConvertStage (fun _ _ _ _ _ _ _ _ => 0) (fun _ _ _ _ _ => 0) [] false false
      ⟨some 10, none, none⟩ none = .ok [] ∧
    (_preprocess (fun _ _ _ _ _ _ _ _ => 0) (fun _ _ _ _ _ => 0) [] false false
      ⟨some 10, none, none⟩ none true 1 true true (fun _ => 0) (fun _ => 1)).isOk = true := by
  refine ⟨(preprocess_global_pad_size _).1, (preprocess_global_pad_size _).2.2.1, rfl, ?_⟩
  exact (preprocess_global_pad_size []).2.2.2 (fun _ _ _ _ _ _ _ _ => 0) (fun _ _ _ _ _ => 0)
    [] false false ⟨some 10, none, none⟩ none true 1 true (fun _ => 0) (fun _ => 1) [] rfl

end SmolVLMProof
